import Mathlib

/-!
Shallow embedding of the showcase Rust sources of this repository
(`src/showcase/rust/snippet.rs` and `src/showcase/rust/enhanced_showcase.rs`)
together with the dispatcher `run_with_store` described by the specification,
and proofs of the behavioural claims about them.

Rust `String` values are modelled as `List Char`; `std::collections::HashMap`
is modelled as an association list with unique keys, where `insert` replaces
the value of an existing key in place and appends otherwise (iteration order
of a `HashMap` is implementation-defined, so fixing this order is a valid
model).  I/O (`println!`, file reads/writes) is side-effect free for every
claim considered, so file-based functions are modelled on the text they read
or write.
-/

set_option maxHeartbeats 1000000

/-- Rust `String` / `&str`, modelled as a list of characters. -/
abbrev Str := List Char

/-! ### Association-list model of `std::collections::HashMap<String, V>` -/

/-- `HashMap::get`: first entry whose key equals `k` (keys are unique in any
map reachable through the API, so "first" is "the" entry). -/
def hmGet (k : Str) : List (Str × α) → Option α
  | [] => none
  | (k', v) :: rest => if k' = k then some v else hmGet k rest

/-- `HashMap::insert`: replace the value of an existing key in place, or
append a fresh entry. -/
def hmInsert (k : Str) (v : α) : List (Str × α) → List (Str × α)
  | [] => [(k, v)]
  | (k', v') :: rest =>
      if k' = k then (k, v) :: rest else (k', v') :: hmInsert k v rest

/-- `HashMap::remove`: drop the entry whose key equals `k` (the first one; in
a well-formed map there is at most one). -/
def hmRemove (k : Str) : List (Str × α) → List (Str × α)
  | [] => []
  | (k', v') :: rest =>
      if k' = k then rest else (k', v') :: hmRemove k rest

/-- `HashMap::contains_key`. -/
def hmContains (k : Str) (m : List (Str × α)) : Bool :=
  (hmGet k m).isSome

/-! ### String helpers used by `enhanced_showcase.rs` -/

/-- Strip one trailing carriage return, as Rust's `str::lines` does to each
line. -/
def stripCR (line : Str) : Str :=
  if line.getLast? = some '\r' then line.dropLast else line

/-- Split a character list at every occurrence of `c`; the result is always
nonempty and the separators are dropped (Rust `str::split`). -/
def splitChar (c : Char) : Str → List Str
  | [] => [[]]
  | a :: rest =>
      if a = c then [] :: splitChar c rest
      else
        match splitChar c rest with
        | [] => [[a]]
        | p :: ps => (a :: p) :: ps

/-- Rust `str::lines`: split on `'\n'`, drop a final empty piece (so a
trailing newline produces no empty line), and strip one trailing `'\r'` from
each line. -/
def rustLines (s : Str) : List Str :=
  (if (splitChar '\n' s).getLast? = some []
    then (splitChar '\n' s).dropLast
    else splitChar '\n' s).map stripCR

/-- Rust `str::split_once(c)`: split at the first occurrence of `c`,
returning the text before and after it, or `none` when `c` does not occur. -/
def split_once (c : Char) : Str → Option (Str × Str)
  | [] => none
  | a :: rest =>
      if a = c then some ([], rest)
      else (split_once c rest).map (fun p => (a :: p.1, p.2))

/-! ### `src/showcase/rust/snippet.rs` -/

/-- `Config` from `snippet.rs`.  `timeout: u32` is modelled as `Nat`; the code
only ever compares it with `0`. -/
structure Config where
  name : Str
  timeout : Nat
  deriving DecidableEq

/-- `Config::validate`: error when the name is empty, then error when the
timeout is zero, else `Ok(())`.  The `Box<dyn Error>` payload is modelled by
its message string. -/
def Config.validate (c : Config) : Except Str Unit :=
  if c.name = [] then Except.error ("Name cannot be empty".toList)
  else if c.timeout = 0 then Except.error ("Timeout must be greater than 0".toList)
  else Except.ok ()

/-- `Status` from `snippet.rs`. -/
inductive Status where
  | Active
  | Inactive
  | Pending (id : Nat)
  deriving DecidableEq

/-- `DefaultHandler::handle`: prints a line (no observable effect on the
result) and returns `config.validate()`. -/
def DefaultHandler.handle (config : Config) : Except Str Unit :=
  config.validate

/-- `process_items` from `snippet.rs`: fold over the configs in input order,
recording `Active` under the config's name when the handler succeeds and
`Inactive` when it fails.  The generic `T: Handler` is modelled by an
arbitrary function into `Except E Unit`. -/
def process_items (handler : Config → Except E Unit) (configs : List Config) :
    List (Str × Status) :=
  configs.foldl
    (fun results config =>
      match handler config with
      | Except.ok _ => hmInsert config.name Status.Active results
      | Except.error _ => hmInsert config.name Status.Inactive results)
    []

/-- The status `process_items` records for a config: `Active` when the
handler succeeds, `Inactive` when it fails. -/
def statusOf (handler : Config → Except E Unit) (c : Config) : Status :=
  match handler c with
  | Except.ok _ => Status.Active
  | Except.error _ => Status.Inactive

/-! ### `src/showcase/rust/enhanced_showcase.rs` -/

/-- `MemoryDatabase`: a `HashMap<String, String>` store. -/
structure MemoryDatabase where
  store : List (Str × Str)
  deriving DecidableEq

/-- `MemoryDatabase::new`. -/
def MemoryDatabase.new : MemoryDatabase := ⟨[]⟩

/-- `Database::insert` for `MemoryDatabase`. -/
def MemoryDatabase.insert (db : MemoryDatabase) (key value : Str) :
    MemoryDatabase :=
  ⟨hmInsert key value db.store⟩

/-- `Database::retrieve` for `MemoryDatabase` (the `&String` result is
modelled by value). -/
def MemoryDatabase.retrieve (db : MemoryDatabase) (key : Str) : Option Str :=
  hmGet key db.store

/-- `MemoryDatabase::load_from_file`, modelled on the text read from the
file: for each line, if `split_once(':')` succeeds, insert the pair into a
store that starts empty.  Lines without a `':'` are skipped. -/
def MemoryDatabase.load_from_contents (contents : Str) : MemoryDatabase :=
  (rustLines contents).foldl
    (fun db line =>
      match split_once ':' line with
      | some kv => ⟨hmInsert kv.1 kv.2 db.store⟩
      | none => db)
    MemoryDatabase.new

/-- `MemoryDatabase::save_to_file`, modelled as the text written: one
`key:value` line (terminated by `'\n'`, as `writeln!` emits) per entry, in
the store's iteration order. -/
def MemoryDatabase.save_contents (db : MemoryDatabase) : Str :=
  (db.store.map (fun p => p.1 ++ ':' :: p.2 ++ ['\n'])).flatten

/-- `DbOperation` from `enhanced_showcase.rs`. -/
inductive DbOperation where
  | Insert (key value : Str)
  | Retrieve (key : Str)
  | Delete (key : Str)
  | Update (key value : Str)
  deriving DecidableEq

/-- `DbOperation::execute`: the `Result<String, String>` outcome together
with the database after the call (`&mut self` is modelled by returning the
new database). -/
def DbOperation.execute (op : DbOperation) (db : MemoryDatabase) :
    Except Str Str × MemoryDatabase :=
  match op with
  | DbOperation.Insert key value =>
      (Except.ok ("Inserted: ".toList ++ key ++ " = ".toList ++ value),
       db.insert key value)
  | DbOperation.Retrieve key =>
      match db.retrieve key with
      | some value =>
          (Except.ok ("Retrieved: ".toList ++ key ++ " = ".toList ++ value), db)
      | none => (Except.error ("Key not found: ".toList ++ key), db)
  | DbOperation.Delete key =>
      if hmContains key db.store then
        (Except.ok ("Deleted: ".toList ++ key), ⟨hmRemove key db.store⟩)
      else
        (Except.error ("Key not found: ".toList ++ key), db)
  | DbOperation.Update key value =>
      if hmContains key db.store then
        (Except.ok ("Updated: ".toList ++ key ++ " = ".toList ++ value),
         ⟨hmInsert key value db.store⟩)
      else
        (Except.error ("Key not found: ".toList ++ key), db)

/-! ### The dispatcher `run_with_store` of the specification -/

/-- The key an operation addresses. -/
def opKey : DbOperation → Str
  | DbOperation.Insert key _ => key
  | DbOperation.Retrieve key => key
  | DbOperation.Delete key => key
  | DbOperation.Update key _ => key

/-- Modelled from the spec: the loop of `run_with_store` (§4.4), which is not
implemented in the sources (only the store-free `process_items` is).  For
each `(descriptor, operation)` pair in input order: run handler validation;
on validation failure record `Inactive` for the operation's key and do not
touch the store; on success apply the operation, recording `Active` when it
succeeds and `Inactive` when it fails. -/
def runStore (handler : Config → Except E Unit) :
    List (Config × DbOperation) → MemoryDatabase → List (Str × Status) →
    MemoryDatabase × List (Str × Status)
  | [], db, res => (db, res)
  | (cfg, op) :: rest, db, res =>
      match handler cfg with
      | Except.error _ =>
          runStore handler rest db (hmInsert (opKey op) Status.Inactive res)
      | Except.ok _ =>
          match op.execute db with
          | (Except.ok _, db') =>
              runStore handler rest db' (hmInsert (opKey op) Status.Active res)
          | (Except.error _, db') =>
              runStore handler rest db' (hmInsert (opKey op) Status.Inactive res)

/-- Modelled from the spec: `run_with_store(store, handler, operations)`
(§4.4), returning the final store and the aggregated key-to-status map. -/
def run_with_store (store : MemoryDatabase) (handler : Config → Except E Unit)
    (operations : List (Config × DbOperation)) :
    MemoryDatabase × List (Str × Status) :=
  runStore handler operations store []

/-! ### Lemmas about the `HashMap` model -/

/-- Looking a key up after an insert: the inserted key maps to the new value,
every other key is unaffected. -/
theorem hmGet_hmInsert (k k' : Str) (v : α) (m : List (Str × α)) :
    hmGet k (hmInsert k' v m) = if k' = k then some v else hmGet k m := by
  induction m with
  | nil => simp [hmGet, hmInsert]
  | cons p rest ih =>
      obtain ⟨a, b⟩ := p
      simp only [hmInsert]
      by_cases h1 : a = k'
      · rw [if_pos h1]
        by_cases h2 : k' = k
        · simp [hmGet, h2]
        · have hak : ¬a = k := by rw [h1]; exact h2
          simp [hmGet, h2, hak]
      · rw [if_neg h1]
        by_cases h2 : a = k
        · have hkk : ¬k' = k := fun hh => h1 (h2.trans hh.symm)
          simp [hmGet, h2, hkk]
        · simp [hmGet, h2, ih]

/-- Lookup distributes over append, preferring the left list. -/
theorem hmGet_append (k : Str) (m₁ m₂ : List (Str × α)) :
    hmGet k (m₁ ++ m₂) =
      match hmGet k m₁ with
      | some v => some v
      | none => hmGet k m₂ := by
  induction m₁ with
  | nil => simp [hmGet]
  | cons p rest ih =>
      obtain ⟨a, b⟩ := p
      by_cases h : a = k <;> simp [hmGet, h, ih]

/-- A key that is not among the entries' keys looks up to `none`. -/
theorem hmGet_eq_none_of_not_mem (k : Str) (m : List (Str × α))
    (h : k ∉ m.map Prod.fst) : hmGet k m = none := by
  induction m with
  | nil => rfl
  | cons p rest ih =>
      simp only [List.map_cons, List.mem_cons] at h
      push_neg at h
      have hne : p.1 ≠ k := fun hh => h.1 hh.symm
      obtain ⟨a, b⟩ := p
      simp only [hmGet]
      rw [if_neg hne]
      exact ih h.2

/-- A successful lookup means the looked-up pair is an entry. -/
theorem mem_of_hmGet_eq_some {k : Str} {m : List (Str × α)} {v : α}
    (h : hmGet k m = some v) : (k, v) ∈ m := by
  induction m with
  | nil => cases h
  | cons p rest ih =>
      obtain ⟨a, b⟩ := p
      simp only [hmGet] at h
      by_cases ha : a = k
      · rw [if_pos ha] at h
        cases h
        subst ha
        exact List.mem_cons_self _ _
      · rw [if_neg ha] at h
        exact List.mem_cons_of_mem _ (ih h)

/-- A key that is among the entries' keys looks up to something. -/
theorem hmGet_ne_none_of_mem {k : Str} {m : List (Str × α)}
    (h : k ∈ m.map Prod.fst) : hmGet k m ≠ none := by
  induction m with
  | nil => cases h
  | cons p rest ih =>
      obtain ⟨a, b⟩ := p
      simp only [List.map_cons, List.mem_cons] at h
      simp only [hmGet]
      by_cases ha : a = k
      · rw [if_pos ha]; exact fun hh => by cases hh
      · rw [if_neg ha]
        rcases h with h | h
        · exact absurd h.symm ha
        · exact ih h

/-- When the keys are unique, looking up in the reversed entry list agrees
with looking up in the list itself. -/
theorem hmGet_reverse (k : Str) (m : List (Str × α))
    (h : (m.map Prod.fst).Nodup) : hmGet k m.reverse = hmGet k m := by
  induction m with
  | nil => rfl
  | cons p rest ih =>
      obtain ⟨a, b⟩ := p
      simp only [List.map_cons, List.nodup_cons] at h
      rw [List.reverse_cons, hmGet_append, ih h.2]
      by_cases ha : a = k
      · subst ha
        rw [hmGet_eq_none_of_not_mem a rest h.1]
        simp [hmGet]
      · cases hrest : hmGet k rest <;> simp [hmGet, ha, hrest]

/-- Removing a key leaves the lookup of every other key unchanged. -/
theorem hmGet_hmRemove_ne (k k' : Str) (m : List (Str × α)) (h : k' ≠ k) :
    hmGet k' (hmRemove k m) = hmGet k' m := by
  induction m with
  | nil => rfl
  | cons p rest ih =>
      obtain ⟨a, b⟩ := p
      by_cases ha : a = k
      · subst ha
        have : a ≠ k' := fun hh => h (hh.symm)
        simp [hmRemove, hmGet, this]
      · by_cases ha' : a = k' <;> simp [hmRemove, hmGet, ha, ha', h, ih]

/-- When the keys are unique, removing a key makes its lookup `none`. -/
theorem hmGet_hmRemove_self (k : Str) (m : List (Str × α))
    (h : (m.map Prod.fst).Nodup) : hmGet k (hmRemove k m) = none := by
  induction m with
  | nil => rfl
  | cons p rest ih =>
      obtain ⟨a, b⟩ := p
      simp only [List.map_cons, List.nodup_cons] at h
      by_cases ha : a = k
      · subst ha
        simp only [hmRemove, if_pos rfl]
        exact hmGet_eq_none_of_not_mem a rest h.1
      · simp [hmRemove, hmGet, ha, ih h.2]

/-- Looking up after a left fold of inserts: the last inserted pair with the
key wins, i.e. the first matching pair of the reversed input; the initial map
answers only when no input pair matches. -/
theorem hmGet_foldl_hmInsert (k : Str) (pairs init : List (Str × α)) :
    hmGet k (pairs.foldl (fun m p => hmInsert p.1 p.2 m) init) =
      match hmGet k pairs.reverse with
      | some v => some v
      | none => hmGet k init := by
  induction pairs generalizing init with
  | nil => simp [hmGet]
  | cons p rest ih =>
      rw [List.foldl_cons, ih, List.reverse_cons, hmGet_append]
      by_cases h : p.1 = k <;>
        cases hr : hmGet k rest.reverse <;>
          simp [hmGet_hmInsert, h, hr, hmGet]

/-! ### Characterizing `process_items` and `load_from_contents` as folds -/

/-- `process_items` is a left fold of inserts of `(name, statusOf)` pairs. -/
theorem process_items_eq_foldl (handler : Config → Except E Unit)
    (configs : List Config) :
    process_items handler configs =
      (configs.map (fun c => (c.name, statusOf handler c))).foldl
        (fun m p => hmInsert p.1 p.2 m) [] := by
  rw [List.foldl_map]
  unfold process_items statusOf
  congr 1
  funext m c
  cases handler c <;> simp

/-- Lookup in the map produced by `process_items`: the last config with the
given name decides, via `statusOf`. -/
theorem hmGet_process_items (handler : Config → Except E Unit)
    (configs : List Config) (n : Str) :
    hmGet n (process_items handler configs) =
      hmGet n ((configs.map (fun c => (c.name, statusOf handler c))).reverse) := by
  rw [process_items_eq_foldl, hmGet_foldl_hmInsert]
  cases hmGet n ((configs.map (fun c => (c.name, statusOf handler c))).reverse) <;>
    simp [hmGet]

/-- The store built by `load_from_contents` is a left fold of inserts of the
pairs extracted from the lines by `split_once ':'`. -/
theorem load_from_contents_store (contents : Str) :
    (MemoryDatabase.load_from_contents contents).store =
      ((rustLines contents).filterMap (split_once ':')).foldl
        (fun m p => hmInsert p.1 p.2 m) [] := by
  unfold MemoryDatabase.load_from_contents
  have aux : ∀ (ls : List Str) (db : MemoryDatabase),
      (ls.foldl
        (fun db line =>
          match split_once ':' line with
          | some kv => (⟨hmInsert kv.1 kv.2 db.store⟩ : MemoryDatabase)
          | none => db)
        db).store =
      (ls.filterMap (split_once ':')).foldl
        (fun m p => hmInsert p.1 p.2 m) db.store := by
    intro ls
    induction ls with
    | nil => intro db; simp
    | cons l rest ih =>
        intro db
        cases hl : split_once ':' l with
        | none => simp [List.filterMap_cons, hl, ih]
        | some kv => simp [List.filterMap_cons, hl, ih]
  exact aux (rustLines contents) MemoryDatabase.new

/-- Lookup in a loaded store: the last parsed line with the given key
decides. -/
theorem hmGet_load_from_contents (contents : Str) (k : Str) :
    hmGet k (MemoryDatabase.load_from_contents contents).store =
      hmGet k ((rustLines contents).filterMap (split_once ':')).reverse := by
  rw [load_from_contents_store, hmGet_foldl_hmInsert]
  cases hmGet k ((rustLines contents).filterMap (split_once ':')).reverse <;>
    simp [MemoryDatabase.new, hmGet]

/-! ### Lemmas about the line and pair encodings -/

/-- `splitChar` never returns an empty list of pieces. -/
theorem splitChar_ne_nil (c : Char) (s : Str) : splitChar c s ≠ [] := by
  induction s with
  | nil => simp [splitChar]
  | cons a rest ih =>
      simp only [splitChar]
      by_cases h : a = c
      · simp [h]
      · rw [if_neg h]
        cases hs : splitChar c rest <;> simp

/-- Splitting a list that does not contain the separator gives one piece. -/
theorem splitChar_of_not_mem (c : Char) (xs : Str) (h : c ∉ xs) :
    splitChar c xs = [xs] := by
  induction xs with
  | nil => rfl
  | cons a rest ih =>
      simp only [List.mem_cons] at h
      push_neg at h
      have hne : ¬a = c := fun hh => h.1 hh.symm
      simp [splitChar, hne, ih h.2]

/-- Splitting past a first separator-free chunk peels it off. -/
theorem splitChar_append_cons (c : Char) (xs s : Str) (h : c ∉ xs) :
    splitChar c (xs ++ c :: s) = xs :: splitChar c s := by
  induction xs with
  | nil => simp [splitChar]
  | cons a rest ih =>
      simp only [List.mem_cons] at h
      push_neg at h
      have hne : ¬a = c := fun hh => h.1 hh.symm
      simp [splitChar, hne, ih h.2]

/-- `stripCR` is the identity on a line that does not end in `'\r'`. -/
theorem stripCR_eq_self (xs : Str) (h : xs.getLast? ≠ some '\r') :
    stripCR xs = xs := by
  unfold stripCR
  rw [if_neg h]

/-- `rustLines` of the empty text is empty. -/
theorem rustLines_nil : rustLines [] = [] := by decide

/-- `rustLines` peels off a first newline-free line. -/
theorem rustLines_append_cons (xs s : Str) (h : '\n' ∉ xs) :
    rustLines (xs ++ '\n' :: s) = stripCR xs :: rustLines s := by
  unfold rustLines
  rw [splitChar_append_cons _ _ _ h]
  obtain ⟨q, qs, hq⟩ := List.exists_cons_of_ne_nil (splitChar_ne_nil '\n' s)
  rw [hq]
  by_cases hl : (q :: qs).getLast? = some []
  · rw [if_pos (by rw [List.getLast?_cons_cons]; exact hl), if_pos hl,
      List.dropLast_cons₂]
    simp
  · rw [if_neg (by rw [List.getLast?_cons_cons]; exact hl), if_neg hl]
    simp

/-- `split_once` recovers a `key ++ ':' ++ value` encoding when the key is
separator-free. -/
theorem split_once_append_cons (c : Char) (k v : Str) (h : c ∉ k) :
    split_once c (k ++ c :: v) = some (k, v) := by
  induction k with
  | nil => simp [split_once]
  | cons a rest ih =>
      simp only [List.mem_cons] at h
      push_neg at h
      have hne : ¬a = c := fun hh => h.1 hh.symm
      simp [split_once, hne, ih h.2]

/-- What `split_once` returns is a genuine first-occurrence split: on success
the line is `key ++ c ++ value` with a separator-free key; on failure the
separator does not occur in the line at all. -/
theorem split_once_spec (c : Char) (line : Str) :
    match split_once c line with
    | some kv => line = kv.1 ++ c :: kv.2 ∧ c ∉ kv.1
    | none => c ∉ line := by
  induction line with
  | nil => simp [split_once]
  | cons a rest ih =>
      simp only [split_once]
      by_cases h : a = c
      · simp [h]
      · rw [if_neg h]
        cases hr : split_once c rest with
        | none =>
            rw [hr] at ih
            simp_all [Ne.symm h]
        | some kv =>
            rw [hr] at ih
            simpa [h] using ⟨ih.1, Ne.symm h, ih.2⟩

/-- One saved entry contributes one newline-terminated line. -/
theorem save_contents_cons (k v : Str) (rest : List (Str × Str)) :
    MemoryDatabase.save_contents ⟨(k, v) :: rest⟩ =
      (k ++ ':' :: v) ++ '\n' :: MemoryDatabase.save_contents ⟨rest⟩ := by
  simp [MemoryDatabase.save_contents, List.append_assoc]

/-- Parsing the saved text recovers exactly the saved entries, provided no
key contains `':'` or `'\n'`, no value contains `'\n'`, and no value ends in
`'\r'`. -/
theorem parsed_save_contents (entries : List (Str × Str))
    (hgood : ∀ p ∈ entries,
      ':' ∉ p.1 ∧ '\n' ∉ p.1 ∧ '\n' ∉ p.2 ∧ p.2.getLast? ≠ some '\r') :
    (rustLines (MemoryDatabase.save_contents ⟨entries⟩)).filterMap
      (split_once ':') = entries := by
  induction entries with
  | nil => simp [MemoryDatabase.save_contents, rustLines_nil]
  | cons p rest ih =>
      obtain ⟨k, v⟩ := p
      obtain ⟨hc, hnk, hnv, hcr⟩ := hgood (k, v) (List.mem_cons_self _ _)
      have hrest : ∀ q ∈ rest,
          ':' ∉ q.1 ∧ '\n' ∉ q.1 ∧ '\n' ∉ q.2 ∧ q.2.getLast? ≠ some '\r' :=
        fun q hq => hgood q (List.mem_cons_of_mem _ hq)
      have hnl : '\n' ∉ k ++ ':' :: v := by
        simp only [List.mem_append, List.mem_cons]
        push_neg
        exact ⟨hnk, by decide, hnv⟩
      have hlast : (k ++ ':' :: v).getLast? ≠ some '\r' := by
        rw [List.getLast?_append_cons]
        cases v with
        | nil => decide
        | cons b bs => rw [List.getLast?_cons_cons]; exact hcr
      rw [save_contents_cons, rustLines_append_cons _ _ hnl,
        stripCR_eq_self _ hlast, List.filterMap_cons,
        split_once_append_cons _ _ _ hc, ih hrest]

/-- The dispatcher loop under a handler that rejects every submitted
descriptor: the store is returned untouched, and the result map holds
`Inactive` at the key of every submitted operation (entries of the initial
result map survive unless overwritten by an `Inactive` record). -/
theorem runStore_allfail (handler : Config → Except E Unit)
    (jobs : List (Config × DbOperation)) :
    ∀ (db : MemoryDatabase) (res : List (Str × Status)),
      (∀ job ∈ jobs, ∃ e, handler job.1 = Except.error e) →
      (runStore handler jobs db res).1 = db ∧
      (∀ k, hmGet k (runStore handler jobs db res).2 = some Status.Inactive ∨
            hmGet k (runStore handler jobs db res).2 = hmGet k res) ∧
      (∀ job ∈ jobs,
        hmGet (opKey job.2) (runStore handler jobs db res).2 =
          some Status.Inactive) := by
  induction jobs with
  | nil =>
      intro db res _
      exact ⟨rfl, fun k => Or.inr rfl, fun job hj => absurd hj (by simp)⟩
  | cons job rest ih =>
      intro db res hfail
      obtain ⟨cfg, op⟩ := job
      obtain ⟨e, he⟩ := hfail (cfg, op) (List.mem_cons_self _ _)
      have hrest : ∀ j ∈ rest, ∃ e, handler j.1 = Except.error e :=
        fun j hj => hfail j (List.mem_cons_of_mem _ hj)
      have hstep : runStore handler ((cfg, op) :: rest) db res =
          runStore handler rest db (hmInsert (opKey op) Status.Inactive res) := by
        simp only [runStore, he]
      obtain ⟨ih1, ih2, ih3⟩ :=
        ih db (hmInsert (opKey op) Status.Inactive res) hrest
      rw [hstep]
      refine ⟨ih1, ?_, ?_⟩
      · intro k
        rcases ih2 k with h | h
        · exact Or.inl h
        · rw [h, hmGet_hmInsert]
          by_cases hk : opKey op = k
          · rw [if_pos hk]; exact Or.inl rfl
          · rw [if_neg hk]; exact Or.inr rfl
      · intro j hj
        rcases List.mem_cons.mp hj with hj' | hj'
        · subst hj'
          rcases ih2 (opKey op) with h | h
          · exact h
          · rw [h, hmGet_hmInsert, if_pos rfl]
        · exact ih3 j hj'

/-! ### The claims -/

/-- C1: dispatcher short-circuit on validation failure.  For every store and
every sequence of (descriptor, operation) pairs, if the handler fails
validation for every descriptor then `run_with_store` leaves the store's
entries entirely unmutated and the returned mapping records `Inactive` for
every submitted key. -/
theorem claim_C1_dispatcher_short_circuit (E : Type)
    (handler : Config → Except E Unit) (store : MemoryDatabase)
    (operations : List (Config × DbOperation))
    (hfail : ∀ job ∈ operations, ∃ e, handler job.1 = Except.error e) :
    (run_with_store store handler operations).1 = store ∧
    ∀ job ∈ operations,
      hmGet (opKey job.2) (run_with_store store handler operations).2 =
        some Status.Inactive := by
  obtain ⟨h1, _, h3⟩ := runStore_allfail handler operations store [] hfail
  exact ⟨h1, h3⟩

/-- C1 witness: a concrete always-failing submission (empty name) leaves a
concrete store untouched and reports `Inactive`. -/
theorem claim_C1_witness :
    (∀ job ∈ [((⟨[], 100⟩ : Config), DbOperation.Insert ("k".toList) ("v".toList))],
      ∃ e, DefaultHandler.handle job.1 = Except.error e) ∧
    (run_with_store MemoryDatabase.new DefaultHandler.handle
        [((⟨[], 100⟩ : Config), DbOperation.Insert ("k".toList) ("v".toList))]).1 =
      MemoryDatabase.new ∧
    ∀ job ∈ [((⟨[], 100⟩ : Config), DbOperation.Insert ("k".toList) ("v".toList))],
      hmGet (opKey job.2)
        (run_with_store MemoryDatabase.new DefaultHandler.handle
          [((⟨[], 100⟩ : Config),
            DbOperation.Insert ("k".toList) ("v".toList))]).2 =
        some Status.Inactive :=
  have hfail : ∀ job ∈
      [((⟨[], 100⟩ : Config), DbOperation.Insert ("k".toList) ("v".toList))],
      ∃ e, DefaultHandler.handle job.1 = Except.error e := by
    intro job hj
    rw [List.mem_singleton] at hj
    subst hj
    exact ⟨_, rfl⟩
  ⟨hfail, claim_C1_dispatcher_short_circuit _ DefaultHandler.handle _ _ hfail⟩

/-- C2 counterexample: the round-trip claim fails as stated, at the store
with the single entry key `"a:b"`, value `"c"` — the saved line `a:b:c` is
re-parsed as key `"a"`, value `"b:c"`, so `retrieve "a:b"` changes from
`Some "c"` to `None`. -/
theorem claim_C2_counterexample :
    ¬ ((MemoryDatabase.load_from_contents
          (MemoryDatabase.save_contents ⟨[("a:b".toList, "c".toList)]⟩)).retrieve
        ("a:b".toList) =
      MemoryDatabase.retrieve ⟨[("a:b".toList, "c".toList)]⟩ ("a:b".toList)) := by
  decide

/-- C2 (amended): snapshot/load round-trip holds for every store whose keys
contain no `':'` and no `'\n'`, and whose values contain no `'\n'` and do not
end in `'\r'` (and whose keys are unique, as for any reachable `HashMap`
state): loading the saved text yields a store with the same retrieve result
for every key. -/
theorem claim_C2_roundtrip (db : MemoryDatabase)
    (hkeys : (db.store.map Prod.fst).Nodup)
    (hgood : ∀ p ∈ db.store,
      ':' ∉ p.1 ∧ '\n' ∉ p.1 ∧ '\n' ∉ p.2 ∧ p.2.getLast? ≠ some '\r') :
    ∀ q, (MemoryDatabase.load_from_contents
        (MemoryDatabase.save_contents db)).retrieve q = db.retrieve q := by
  obtain ⟨entries⟩ := db
  intro q
  unfold MemoryDatabase.retrieve
  rw [hmGet_load_from_contents, parsed_save_contents entries hgood,
    hmGet_reverse _ _ hkeys]

/-- C2 witness: the round-trip at a concrete well-formed store. -/
theorem claim_C2_roundtrip_witness :
    (MemoryDatabase.load_from_contents
        (MemoryDatabase.save_contents
          ⟨[("language".toList, "Rust".toList),
            ("year".toList, "2010".toList)]⟩)).retrieve ("language".toList) =
    MemoryDatabase.retrieve
      ⟨[("language".toList, "Rust".toList), ("year".toList, "2010".toList)]⟩
      ("language".toList) :=
  claim_C2_roundtrip _ (by decide) (by decide) ("language".toList)

/-- C3: update never creates keys.  When the key is present, `Update`
succeeds and the key afterwards retrieves the new value; when it is absent,
`Update` fails with the key-not-found error and the store is returned
completely unchanged. -/
theorem claim_C3_update_never_creates (db : MemoryDatabase) (k v2 : Str) :
    (∀ v1, db.retrieve k = some v1 →
      ((DbOperation.Update k v2).execute db).1 =
        Except.ok ("Updated: ".toList ++ k ++ " = ".toList ++ v2) ∧
      ((DbOperation.Update k v2).execute db).2.retrieve k = some v2) ∧
    (db.retrieve k = none →
      (DbOperation.Update k v2).execute db =
        (Except.error ("Key not found: ".toList ++ k), db)) := by
  constructor
  · intro v1 h1
    have hc : hmContains k db.store = true := by
      unfold MemoryDatabase.retrieve at h1
      unfold hmContains
      rw [h1]
      rfl
    simp only [DbOperation.execute, hc, if_true]
    exact ⟨trivial, by unfold MemoryDatabase.retrieve; simp [hmGet_hmInsert]⟩
  · intro h1
    have hc : hmContains k db.store = false := by
      unfold MemoryDatabase.retrieve at h1
      unfold hmContains
      rw [h1]
      rfl
    simp [DbOperation.execute, hc]

/-- C3 witness: updating the present key `"k"` (old value `"v1"`) to `"v2"`
retrieves `"v2"`. -/
theorem claim_C3_witness :
    MemoryDatabase.retrieve ⟨[("k".toList, "v1".toList)]⟩ ("k".toList) =
      some ("v1".toList) ∧
    ((DbOperation.Update ("k".toList) ("v2".toList)).execute
        ⟨[("k".toList, "v1".toList)]⟩).2.retrieve ("k".toList) =
      some ("v2".toList) :=
  ⟨by decide,
   ((claim_C3_update_never_creates ⟨[("k".toList, "v1".toList)]⟩ ("k".toList)
      ("v2".toList)).1 ("v1".toList) (by decide)).2⟩

/-- C4: delete atomicity on failure.  When the key is absent, `Delete` fails
with the key-not-found error and the store is returned completely unchanged;
when it is present (keys unique, as in any reachable `HashMap` state),
`Delete` succeeds, the key afterwards retrieves `none`, and every other key
retrieves exactly what it did before. -/
theorem claim_C4_delete_atomic (db : MemoryDatabase) (k : Str) :
    (db.retrieve k = none →
      (DbOperation.Delete k).execute db =
        (Except.error ("Key not found: ".toList ++ k), db)) ∧
    ((db.store.map Prod.fst).Nodup → ∀ v, db.retrieve k = some v →
      ((DbOperation.Delete k).execute db).1 =
        Except.ok ("Deleted: ".toList ++ k) ∧
      ((DbOperation.Delete k).execute db).2.retrieve k = none ∧
      ∀ k', k' ≠ k →
        ((DbOperation.Delete k).execute db).2.retrieve k' = db.retrieve k') := by
  constructor
  · intro h1
    have hc : hmContains k db.store = false := by
      unfold MemoryDatabase.retrieve at h1
      unfold hmContains
      rw [h1]
      rfl
    simp [DbOperation.execute, hc]
  · intro hnd v h1
    have hc : hmContains k db.store = true := by
      unfold MemoryDatabase.retrieve at h1
      unfold hmContains
      rw [h1]
      rfl
    simp only [DbOperation.execute, hc, if_true]
    refine ⟨trivial, ?_, ?_⟩
    · unfold MemoryDatabase.retrieve
      exact hmGet_hmRemove_self k db.store hnd
    · intro k' hk'
      unfold MemoryDatabase.retrieve
      exact hmGet_hmRemove_ne k k' db.store hk'

/-- C4 witness: deleting the absent key `"x"` fails and returns the store
unchanged. -/
theorem claim_C4_witness :
    MemoryDatabase.retrieve ⟨[("k".toList, "v".toList)]⟩ ("x".toList) = none ∧
    (DbOperation.Delete ("x".toList)).execute ⟨[("k".toList, "v".toList)]⟩ =
      (Except.error ("Key not found: ".toList ++ "x".toList),
       ⟨[("k".toList, "v".toList)]⟩) :=
  ⟨by decide,
   (claim_C4_delete_atomic ⟨[("k".toList, "v".toList)]⟩ ("x".toList)).1
     (by decide)⟩

/-- C5: insert is an unconditional upsert.  For every store, key and value
(empty strings included), inserting makes the key retrieve the value, and the
`Insert` operation returns `Ok` (never an error) with exactly that store
update. -/
theorem claim_C5_insert_upsert (db : MemoryDatabase) (k v : Str) :
    (db.insert k v).retrieve k = some v ∧
    (DbOperation.Insert k v).execute db =
      (Except.ok ("Inserted: ".toList ++ k ++ " = ".toList ++ v),
       db.insert k v) := by
  constructor
  · unfold MemoryDatabase.insert MemoryDatabase.retrieve
    simp [hmGet_hmInsert]
  · rfl

/-- C5 witness: the empty-string key and value on the empty store. -/
theorem claim_C5_witness :
    (MemoryDatabase.new.insert [] []).retrieve [] = some [] ∧
    (DbOperation.Insert [] []).execute MemoryDatabase.new =
      (Except.ok ("Inserted: ".toList ++ [] ++ " = ".toList ++ []),
       MemoryDatabase.new.insert [] []) :=
  claim_C5_insert_upsert MemoryDatabase.new [] []

/-- C6: the default handler fails with a validation error exactly when the
descriptor's name is empty or its timeout is zero, and the three scenario
descriptors behave as the spec states. -/
theorem claim_C6_default_validation :
    (∀ c : Config,
      (∃ e, DefaultHandler.handle c = Except.error e) ↔
        (c.name = [] ∨ c.timeout = 0)) ∧
    DefaultHandler.handle ⟨[], 100⟩ =
      Except.error ("Name cannot be empty".toList) ∧
    DefaultHandler.handle ⟨"svc".toList, 0⟩ =
      Except.error ("Timeout must be greater than 0".toList) ∧
    DefaultHandler.handle ⟨"svc".toList, 100⟩ = Except.ok () := by
  refine ⟨?_, rfl, by simp [DefaultHandler.handle, Config.validate],
    by simp [DefaultHandler.handle, Config.validate]⟩
  intro c
  constructor
  · rintro ⟨e, he⟩
    by_contra hcon
    push_neg at hcon
    unfold DefaultHandler.handle Config.validate at he
    rw [if_neg hcon.1, if_neg hcon.2] at he
    cases he
  · intro h
    unfold DefaultHandler.handle Config.validate
    by_cases hn : c.name = []
    · exact ⟨_, by rw [if_pos hn]⟩
    · have ht : c.timeout = 0 := h.resolve_left hn
      exact ⟨_, by rw [if_neg hn, if_pos ht]⟩

/-- C6 witness: a concrete empty-name descriptor fails validation. -/
theorem claim_C6_witness :
    ∃ e, DefaultHandler.handle ⟨[], 5⟩ = Except.error e :=
  (claim_C6_default_validation.1 ⟨[], 5⟩).mpr (Or.inl rfl)

/-- C7: dispatcher aggregation.  For every handler, the mapping returned by
`process_items` has an entry for every submitted descriptor name, and the
entry at every name is determined, via `statusOf` (`Active` on handler
success, `Inactive` on handler failure), by the last config with that name in
input order — the lookup in the reversed `(name, statusOf)` list.  In
particular no handler failure escapes as a fatal error: the result is a total
mapping. -/
theorem claim_C7_aggregation (E : Type) (handler : Config → Except E Unit)
    (configs : List Config) :
    (∀ c ∈ configs, hmGet c.name (process_items handler configs) ≠ none) ∧
    (∀ n, hmGet n (process_items handler configs) =
      hmGet n ((configs.map (fun c => (c.name, statusOf handler c))).reverse)) := by
  refine ⟨?_, fun n => hmGet_process_items handler configs n⟩
  intro c hc
  rw [hmGet_process_items]
  apply hmGet_ne_none_of_mem
  simp only [List.map_reverse, List.mem_reverse, List.map_map, List.mem_map]
  exact ⟨c, hc, rfl⟩

/-- C7 witness: a concrete valid descriptor gets an entry. -/
theorem claim_C7_witness :
    ((⟨"svc".toList, 100⟩ : Config) ∈ [(⟨"svc".toList, 100⟩ : Config)]) ∧
    hmGet ("svc".toList)
      (process_items DefaultHandler.handle [⟨"svc".toList, 100⟩]) ≠ none :=
  ⟨by decide,
   (claim_C7_aggregation _ DefaultHandler.handle [⟨"svc".toList, 100⟩]).1
     ⟨"svc".toList, 100⟩ (by decide)⟩

/-- C8: load parsing semantics.  Loading looks up as the last parsed
`key:value` line (lookup in the reversed list of pairs extracted from the
lines by `split_once ':'`, so later duplicates win and `':'`-free lines are
ignored), and `split_once ':'` genuinely splits at the first `':'`: on
success the line is `key ++ ':' ++ value` with a `':'`-free key, on failure
the line contains no `':'`. -/
theorem claim_C8_load_parsing (contents : Str) :
    (∀ k, (MemoryDatabase.load_from_contents contents).retrieve k =
      hmGet k ((rustLines contents).filterMap (split_once ':')).reverse) ∧
    (∀ line : Str,
      match split_once ':' line with
      | some kv => line = kv.1 ++ ':' :: kv.2 ∧ ':' ∉ kv.1
      | none => ':' ∉ line) :=
  ⟨fun k => hmGet_load_from_contents contents k,
   fun line => split_once_spec ':' line⟩

/-- C8 witness: a concrete text with a duplicate key and a colon-free line. -/
theorem claim_C8_witness :
    (MemoryDatabase.load_from_contents ("a:1\nnocolon\na:2".toList)).retrieve
        ("a".toList) =
      hmGet ("a".toList)
        ((rustLines ("a:1\nnocolon\na:2".toList)).filterMap
          (split_once ':')).reverse :=
  (claim_C8_load_parsing ("a:1\nnocolon\na:2".toList)).1 ("a".toList)

/-- C9: `DefaultHandler::handle` delegates to `Config::validate`: on every
descriptor the two return the identical result. -/
theorem claim_C9_handle_refines_validate (c : Config) :
    DefaultHandler.handle c = Config.validate c := rfl

/-- C9 witness: the delegation at a concrete descriptor. -/
theorem claim_C9_witness :
    DefaultHandler.handle ⟨"svc".toList, 100⟩ =
      Config.validate ⟨"svc".toList, 100⟩ :=
  claim_C9_handle_refines_validate ⟨"svc".toList, 100⟩

/-- C10: the dispatcher never emits a `Pending` status: every status stored
in the mapping returned by `process_items` is `Active` or `Inactive`. -/
theorem claim_C10_no_pending (E : Type) (handler : Config → Except E Unit)
    (configs : List Config) (n : Str) (s : Status)
    (h : hmGet n (process_items handler configs) = some s) :
    s = Status.Active ∨ s = Status.Inactive := by
  rw [hmGet_process_items] at h
  have hmem := mem_of_hmGet_eq_some h
  rw [List.mem_reverse] at hmem
  obtain ⟨c, _, hc⟩ := List.mem_map.mp hmem
  have hs : s = statusOf handler c := (congrArg Prod.snd hc).symm
  cases hh : handler c with
  | ok u => rw [hs]; simp [statusOf, hh]
  | error e => rw [hs]; simp [statusOf, hh]

/-- C10 witness: a concrete run whose recorded status is `Active`. -/
theorem claim_C10_witness :
    hmGet ("svc".toList)
        (process_items DefaultHandler.handle [⟨"svc".toList, 100⟩]) =
      some Status.Active ∧
    (Status.Active = Status.Active ∨ Status.Active = Status.Inactive) :=
  ⟨by decide,
   claim_C10_no_pending _ DefaultHandler.handle [⟨"svc".toList, 100⟩]
     ("svc".toList) Status.Active (by decide)⟩
